import Mathlib

/-!
Verification of the streaming channel coordinator of this repository.

The development shallowly embeds the coordinator's data model and
operations:

* the PChannel metadata value object and its transitions
  (TryAssignToServerID, AssignToServerDone, MarkAsUnavailable),
  exercised by internal/streamingcoord/server/balancer/channel/pchannel_test.go;
* the replication-availability predicate isChannelAvailableInReplication;
* the channel manager operations AddPChannels, AllocVirtualChannels and
  UpdateReplicateConfiguration;
* the ConfigChannelProvider of
  internal/util/streamingutil/util (config_channel_provider.go), whose
  implementation is present in the source tree.

The implementation files of the balancer channel package (pchannel.go,
channel manager, vchannel allocator, replication helper) are not in the
source tree; only their tests are.  Their definitions below are marked
"Modelled from the spec:" and follow the specification document, except
where the repository's own tests pin a different behaviour, which the
doc comments point out.
-/

/-- The four PChannel states (spec section 3). -/
inductive PChannelState where
  | UNINITIALIZED
  | ASSIGNING
  | ASSIGNED
  | UNAVAILABLE
deriving DecidableEq

/-- Channel access mode: read-write or read-only. -/
inductive AccessMode where
  | RW
  | RO
deriving DecidableEq

/-- One assignment-history entry: the term and the server id of a prior,
not-yet-acknowledged assignment. -/
structure AssignmentLog where
  term : Int
  node : Int
deriving DecidableEq

/-- In-memory metadata of one physical channel: name, monotone term,
assigned server id (0 means none), access mode, state, assignment
history, and the replication-availability bit. -/
structure PChannelMeta where
  name : String
  term : Int
  node : Int
  accessMode : AccessMode
  state : PChannelState
  assignHistories : List AssignmentLog
  availableInReplication : Bool
deriving DecidableEq

/-- Modelled from the spec: NewPChannelMeta (pchannel.go is not in the
source tree) creates a fresh channel: term 1, no node, UNINITIALIZED,
empty history, available in replication by default
(pchannel_test.go lines 14-17 and 100-104). -/
def NewPChannelMeta (name : String) (accessMode : AccessMode) : PChannelMeta :=
  { name := name
    term := 1
    node := 0
    accessMode := accessMode
    state := .UNINITIALIZED
    assignHistories := []
    availableInReplication := true }

/-- Modelled from the spec: TryAssignToServerID of the mutable PChannel
clone (pchannel.go is not in the source tree).  When the channel is
ASSIGNED to the very node being requested, nothing happens and false is
returned; otherwise the node, access mode, term (incremented by one) and
state (ASSIGNING) are updated and true is returned.  For the assignment
history the spec sentence says the prior pair is pushed only from the
ASSIGNED state, but the repository's own test
(pchannel_test.go lines 107-185) requires a different rule, which is the
one embedded here: from every prior state except UNINITIALIZED the prior
pair is recorded, and when the last history entry already carries the
prior node that entry is replaced in place instead of a second entry
being appended. -/
def TryAssignToServerID (c : PChannelMeta) (accessMode : AccessMode) (node : Int) :
    Bool × PChannelMeta :=
  if c.state = .ASSIGNED ∧ c.node = node then (false, c)
  else
    let hist :=
      if c.state = .UNINITIALIZED then c.assignHistories
      else
        match c.assignHistories.getLast? with
        | none => [⟨c.term, c.node⟩]
        | some last =>
          if last.node = c.node then c.assignHistories.dropLast ++ [⟨c.term, c.node⟩]
          else c.assignHistories ++ [⟨c.term, c.node⟩]
    (true,
      { c with
        node := node
        accessMode := accessMode
        term := c.term + 1
        state := .ASSIGNING
        assignHistories := hist })

/-- Modelled from the spec: assignToServerDone sets the state to ASSIGNED
and clears the history entries whose term is below the current term
(pchannel_test.go lines 142-151). -/
def AssignToServerDone (c : PChannelMeta) : PChannelMeta :=
  { c with
    state := .ASSIGNED
    assignHistories := c.assignHistories.filter (fun h => decide (c.term ≤ h.term)) }

/-- Modelled from the spec: markAsUnavailable is a no-op for a stale term
and otherwise moves the channel to UNAVAILABLE
(pchannel_test.go lines 157-167). -/
def MarkAsUnavailable (c : PChannelMeta) (term : Int) : PChannelMeta :=
  if term < c.term then c else { c with state := .UNAVAILABLE }

/-- One transition of a PChannel, used to describe reachability from a
fresh channel. -/
inductive PChannelOp where
  | tryAssign (accessMode : AccessMode) (node : Int)
  | assignDone
  | markUnavailable (term : Int)

/-- Apply one transition to a channel. -/
def applyOp (c : PChannelMeta) : PChannelOp → PChannelMeta
  | .tryAssign am n => (TryAssignToServerID c am n).2
  | .assignDone => AssignToServerDone c
  | .markUnavailable t => MarkAsUnavailable c t

/-- Apply a sequence of transitions to a channel. -/
def runOps (c : PChannelMeta) (ops : List PChannelOp) : PChannelMeta :=
  ops.foldl applyOp c

/-- One cluster of a replicate configuration: its id and its declared
pchannel list. -/
structure MilvusCluster where
  clusterId : String
  pchannels : List String
deriving DecidableEq

/-- One directed replication edge between two clusters. -/
structure CrossClusterTopology where
  sourceClusterId : String
  targetClusterId : String
deriving DecidableEq

/-- A replicate configuration: the participating clusters and the
cross-cluster replication edges. -/
structure ReplicateConfiguration where
  clusters : List MilvusCluster
  crossClusterTopology : List CrossClusterTopology
deriving DecidableEq

/-- A replicate-config helper: a configuration interpreted from the point
of view of one local cluster. -/
structure ConfigHelper where
  localClusterId : String
  config : ReplicateConfiguration
deriving DecidableEq

/-- The pchannel list the configuration declares for the helper's local
cluster (empty when the local cluster is not declared). -/
def localPChannels (h : ConfigHelper) : List String :=
  match h.config.clusters.find? (fun cl => cl.clusterId == h.localClusterId) with
  | none => []
  | some cl => cl.pchannels

/-- Modelled from the spec: isChannelAvailableInReplication (the
implementation is not in the source tree; its test is part_005 lines
1020-1049).  A channel is available when there is no configuration, or
the configuration has no cross-cluster topology, or the channel appears
in the local cluster's declared pchannel list. -/
def isChannelAvailableInReplication (name : String) (helper : Option ConfigHelper) : Bool :=
  match helper with
  | none => true
  | some h =>
    if h.config.crossClusterTopology.isEmpty then true
    else decide (name ∈ localPChannels h)

/-- One replicating task materialized when the local cluster is a
replication source: source channel, mapped target channel, target
cluster. -/
structure ReplicatingTask where
  sourceChannelName : String
  targetChannelName : String
  targetClusterId : String
deriving DecidableEq

/-- The error surfaced when the metadata catalog rejects a write. -/
inductive CatalogError where
  | persistFailure
deriving DecidableEq

/-- The channel manager state: local cluster id, channel registry, local
epoch, streaming-enabled flag, persisted replicate configuration and the
persisted replicating tasks. -/
structure ChannelManager where
  localClusterId : String
  channels : List PChannelMeta
  epoch : Int
  streamingEnabled : Bool
  replicateConfig : Option ReplicateConfiguration
  replicatingTasks : List ReplicatingTask
deriving DecidableEq

/-- The manager's current config helper, if a configuration is persisted. -/
def configHelperOf (m : ChannelManager) : Option ConfigHelper :=
  m.replicateConfig.map (fun r => ⟨m.localClusterId, r⟩)

/-- Modelled from the spec: the PChannel the manager creates for an
unseen name: UNINITIALIZED, term 1, RO when streaming was never enabled
and RW otherwise, availability computed from the replicate
configuration. -/
def newManagedPChannel (m : ChannelManager) (name : String) : PChannelMeta :=
  { NewPChannelMeta name (if m.streamingEnabled then .RW else .RO) with
      availableInReplication := isChannelAvailableInReplication name (configHelperOf m) }

/-- Modelled from the spec: AddPChannels (the channel manager
implementation is not in the source tree; its tests are part_005 lines
665-835).  For each name not yet in the registry a new channel is
created and inserted tentatively; the batch is then persisted, the
outcome of which is abstracted by `saveOk`.  On success the additions
are committed and the epoch is bumped when the registry grew; on failure
the tentative additions are rolled back and the catalog error is
surfaced. -/
def AddPChannels (m : ChannelManager) (names : List String) (saveOk : Bool) :
    ChannelManager × Option CatalogError :=
  let fresh := names.filter (fun n => decide (∀ c ∈ m.channels, c.name ≠ n))
  let created := fresh.map (fun n => newManagedPChannel m n)
  let tentative := m.channels ++ created
  if saveOk then
    ({ m with
        channels := tentative
        epoch := if created.isEmpty then m.epoch else m.epoch + 1 }, none)
  else
    ({ m with channels := tentative.filter (fun c => decide (c.name ∉ fresh)) },
      some .persistFailure)

/-- The virtual-channel name synthesized for one allocation slot:
the pchannel name, an underscore, the collection id, the letter v and
the zero-based slot index. -/
def AllocVChannelName (pchannelName : String) (collectionID idx : Nat) : String :=
  pchannelName ++ "_" ++ Nat.repr collectionID ++ "v" ++ Nat.repr idx

/-- Modelled from the spec: AllocVirtualChannels (the allocator
implementation is not in the source tree; its tests are part_005 lines
510-552 and 859-902).  Eligible channels are the registry entries with
the replication-availability bit set; the call fails when more names are
requested than eligible channels exist; otherwise the eligible channels
are sorted ascending by their current load and the first `num` of them
name the result slots. -/
def AllocVirtualChannels (m : ChannelManager) (load : String → Nat)
    (collectionID num : Nat) : Option (List String) :=
  let eligible := m.channels.filter (fun c => c.availableInReplication)
  if num > eligible.length then none
  else
    let sorted := List.insertionSort (fun a b => load a.name ≤ load b.name) eligible
    some ((sorted.take num).enum.map (fun p => AllocVChannelName p.2.name collectionID p.1))

/-- The cluster a configuration declares under the given id. -/
def clusterOf (r : ReplicateConfiguration) (cid : String) : Option MilvusCluster :=
  r.clusters.find? (fun cl => cl.clusterId == cid)

/-- Modelled from the spec: the replicating tasks derived for a
configuration: for each cross-cluster edge whose source is the local
cluster, the local pchannels paired with the target cluster's pchannels. -/
def deriveReplicatingTasks (localClusterId : String) (r : ReplicateConfiguration) :
    List ReplicatingTask :=
  r.crossClusterTopology.foldr
    (fun edge acc =>
      if edge.sourceClusterId = localClusterId then
        (match clusterOf r localClusterId, clusterOf r edge.targetClusterId with
         | some src, some tgt =>
            (src.pchannels.zip tgt.pchannels).map (fun p => ⟨p.1, p.2, tgt.clusterId⟩)
         | _, _ => []) ++ acc
      else acc)
    []

/-- Modelled from the spec: UpdateReplicateConfiguration (the
implementation is not in the source tree; its tests are part_005 lines
273-507 and 947-1018).  Persistence is assumed to succeed, as in the
tests.  The proposed configuration is persisted together with the
derived replicating tasks that are not persisted yet, every channel's
replication-availability bit is refreshed from the new configuration,
and the local epoch is bumped exactly when the persisted configuration
actually changes. -/
def UpdateReplicateConfiguration (m : ChannelManager) (r : ReplicateConfiguration) :
    ChannelManager :=
  let newTasks := (deriveReplicatingTasks m.localClusterId r).filter
      (fun t => decide (t ∉ m.replicatingTasks))
  { m with
    replicateConfig := some r
    replicatingTasks := m.replicatingTasks ++ newTasks
    channels := m.channels.map (fun c =>
      { c with availableInReplication :=
          isChannelAvailableInReplication c.name (some ⟨m.localClusterId, r⟩) })
    epoch := if m.replicateConfig = some r then m.epoch else m.epoch + 1 }

/-- Lexicographic comparison of character lists, true when the first list
is less than or equal to the second. -/
def charListLe : List Char → List Char → Bool
  | [], _ => true
  | _ :: _, [] => false
  | a :: as, b :: bs => if a < b then true else if b < a then false else charListLe as bs

/-- Lexicographic string comparison, the order used by sort.Strings. -/
def stringLe (a b : String) : Bool :=
  charListLe a.data b.data

/-- Ascending lexicographic string sort: the embedding of Go's
sort.Strings used by the ConfigChannelProvider. -/
def sortStrings (l : List String) : List String :=
  List.insertionSort (fun a b => stringLe a b = true) l

/-- The state of a ConfigChannelProvider
(internal/util/streamingutil/util/config_channel_provider.go): the set
of already-known topic names and the initial channel list handed to
consumers.  NewConfigChannelProvider records the current topics as known
and publishes them sorted. -/
structure ConfigChannelProvider where
  known : List String
  initialChannels : List String

/-- NewConfigChannelProvider reads the current topics from the
configuration, remembers them as known and sorts them into the initial
channel list (config_channel_provider.go lines 29-51). -/
def NewConfigChannelProvider (topics : List String) : ConfigChannelProvider :=
  { known := topics, initialChannels := sortStrings topics }

/-- The loop body of onConfigChange
(config_channel_provider.go lines 85-104): walk the current topic set,
and collect every name not yet known, inserting it into the known set as
it is found.  Returns the grown known set and the collected new names. -/
def collectNew : List String → List String → List String → List String × List String
  | [], known, news => (known, news)
  | name :: rest, known, news =>
    if name ∈ known then collectNew rest known news
    else collectNew rest (name :: known) (news ++ [name])

/-- onConfigChange (config_channel_provider.go lines 85-104): collect the
names of the current topic set that are not known yet; when there are
none, nothing is sent; otherwise the new names are sorted and sent on
the incoming stream. -/
def onConfigChange (known current : List String) : List String × Option (List String) :=
  let r := collectNew current known []
  if r.2.isEmpty then (r.1, none) else (r.1, some (sortStrings r.2))

/-- Run the provider over a sequence of config-change events, each
carrying the topic set read from the configuration at that moment.
Returns the final known set and the slices delivered on the incoming
stream, in delivery order. -/
def runProvider : List (List String) → List String → List String × List (List String)
  | [], known => (known, [])
  | current :: rest, known =>
    match onConfigChange known current with
    | (known1, none) => runProvider rest known1
    | (known1, some s) =>
      let r := runProvider rest known1
      (r.1, s :: r.2)

/-- Decimal digit string of a natural number, most significant digit
first: a structurally transparent description of Nat.repr used by the
proofs about virtual-channel names. -/
def natChars (n : Nat) : List Char :=
  if n < 10 then [Nat.digitChar n]
  else natChars (n / 10) ++ [Nat.digitChar (n % 10)]
decreasing_by exact Nat.div_lt_self (by omega) (by omega)

/-- The concrete ASSIGNING channel of pchannel_test.go lines 128-140,
used to refute the spec's description of the history push. -/
def pchannelAssigning : PChannelMeta :=
  { name := "test-channel"
    term := 2
    node := 456
    accessMode := .RW
    state := .ASSIGNING
    assignHistories := []
    availableInReplication := true }

/-- The concrete channel of pchannel_test.go lines 177-185: ASSIGNING at
term 6 on node 790, with node 790 already recorded in the history. -/
def pchannelWithHistory : PChannelMeta :=
  { name := "test-channel"
    term := 6
    node := 790
    accessMode := .RW
    state := .ASSIGNING
    assignHistories := [⟨4, 789⟩, ⟨5, 790⟩]
    availableInReplication := true }

/-- The concrete ASSIGNED channel of pchannel_test.go lines 142-161:
term 3 on node 789 with an empty history. -/
def pchannelDone : PChannelMeta :=
  { name := "test-channel"
    term := 3
    node := 789
    accessMode := .RW
    state := .ASSIGNED
    assignHistories := []
    availableInReplication := true }

/-- The concrete multi-cluster config helper of the
isChannelAvailableInReplication test (part_005 lines 1034-1048). -/
def cfgHelperTest : ConfigHelper :=
  { localClusterId := "by-dev"
    config :=
      { clusters := [⟨"by-dev", ["ch1", "ch2"]⟩, ⟨"by-dev2", ["ch3", "ch4"]⟩]
        crossClusterTopology := [⟨"by-dev", "by-dev2"⟩] } }

/-- A concrete manager used to exercise the allocator: one channel
available in replication and one not, mirroring part_005 lines 859-902. -/
def mgrAllocTest : ChannelManager :=
  { localClusterId := "by-dev"
    channels := [NewPChannelMeta "ch1" .RW,
                 { NewPChannelMeta "ch3" .RW with availableInReplication := false }]
    epoch := 0
    streamingEnabled := true
    replicateConfig := none
    replicatingTasks := [] }

/-- A concrete zero load table for the allocator witnesses. -/
def loadZero : String → Nat := fun _ => 0

/-! Theorems.  First a collection of helper lemmas about the string
order, the decimal digits of Nat.repr, and the provider loop; then one
theorem per claim, each preceded by a doc comment naming the claim. -/

theorem charListLe_iff :
    ∀ (x y : List Char), charListLe x y = true ↔ ¬ List.Lex (· < ·) y x := by
  intro x
  induction x with
  | nil =>
    intro y
    constructor
    · intro _ h
      cases h
    · intro _
      rfl
  | cons a as ih =>
    intro y
    cases y with
    | nil =>
      constructor
      · intro h
        simp [charListLe] at h
      · intro h
        exact absurd List.Lex.nil h
    | cons b bs =>
      rcases lt_trichotomy a b with hab | hab | hab
      · have h1 : charListLe (a :: as) (b :: bs) = true := by
          simp [charListLe, hab]
        rw [h1]
        constructor
        · intro _ h
          cases h with
          | rel h' => exact absurd h' (lt_asymm hab)
          | cons h' => exact absurd hab (lt_irrefl a)
        · intro _
          rfl
      · subst hab
        have h1 : charListLe (a :: as) (a :: bs) = charListLe as bs := by
          simp [charListLe]
        rw [h1]
        constructor
        · intro h hlex
          cases hlex with
          | rel h' => exact absurd h' (lt_irrefl a)
          | cons h' => exact (ih bs).mp h h'
        · intro h
          exact (ih bs).mpr (fun h' => h (List.Lex.cons h'))
      · have h1 : charListLe (a :: as) (b :: bs) = false := by
          simp [charListLe, hab, lt_asymm hab]
        rw [h1]
        constructor
        · intro h
          simp at h
        · intro h
          exact absurd (List.Lex.rel hab) h

theorem stringLe_iff (a b : String) : stringLe a b = true ↔ a ≤ b := by
  have h1 : (a ≤ b) ↔ ¬ b.toList < a.toList := by
    rw [String.le_iff_toList_le]
    exact not_lt.symm
  have h2 : (b.toList < a.toList) ↔ List.Lex (· < ·) b.data a.data := Iff.rfl
  rw [h1, h2]
  exact charListLe_iff a.data b.data

theorem stringLe_total (a b : String) : stringLe a b = true ∨ stringLe b a = true := by
  rcases le_total a b with h | h
  · exact Or.inl ((stringLe_iff a b).mpr h)
  · exact Or.inr ((stringLe_iff b a).mpr h)

theorem stringLe_trans (a b c : String) (h1 : stringLe a b = true) (h2 : stringLe b c = true) :
    stringLe a c = true :=
  (stringLe_iff a c).mpr (le_trans ((stringLe_iff a b).mp h1) ((stringLe_iff b c).mp h2))

theorem mem_sortStrings {x : String} {l : List String} : x ∈ sortStrings l ↔ x ∈ l :=
  List.mem_insertionSort _

theorem length_sortStrings (l : List String) : (sortStrings l).length = l.length :=
  (List.perm_insertionSort _ l).length_eq

theorem sorted_sortStrings (l : List String) : (sortStrings l).Sorted (· ≤ ·) := by
  have h := @List.sorted_insertionSort String (fun a b => stringLe a b = true) _
    ⟨stringLe_total⟩ ⟨stringLe_trans⟩ l
  exact h.imp (fun hab => (stringLe_iff _ _).mp hab)

theorem collectNew_known_sub :
    ∀ (cur known news : List String), known ⊆ (collectNew cur known news).1 := by
  intro cur
  induction cur with
  | nil =>
    intro known news
    exact fun x hx => hx
  | cons name rest ih =>
    intro known news
    by_cases h : name ∈ known
    · simp only [collectNew, if_pos h]
      exact ih known news
    · simp only [collectNew, if_neg h]
      exact fun x hx => ih (name :: known) (news ++ [name]) (List.mem_cons_of_mem _ hx)

theorem collectNew_news_fresh :
    ∀ (cur known news : List String) (x : String),
    x ∈ (collectNew cur known news).2 → x ∈ news ∨ x ∉ known := by
  intro cur
  induction cur with
  | nil =>
    intro known news x hx
    exact Or.inl hx
  | cons name rest ih =>
    intro known news x hx
    by_cases h : name ∈ known
    · simp only [collectNew, if_pos h] at hx
      exact ih _ _ _ hx
    · simp only [collectNew, if_neg h] at hx
      rcases ih _ _ _ hx with hx' | hx'
      · rcases List.mem_append.mp hx' with h1 | h1
        · exact Or.inl h1
        · simp only [List.mem_singleton] at h1
          subst h1
          exact Or.inr h
      · exact Or.inr (fun hk => hx' (List.mem_cons_of_mem _ hk))

theorem collectNew_news_in_known :
    ∀ (cur known news : List String), (∀ x ∈ news, x ∈ known) →
    ∀ x ∈ (collectNew cur known news).2, x ∈ (collectNew cur known news).1 := by
  intro cur
  induction cur with
  | nil =>
    intro known news h x hx
    exact h x hx
  | cons name rest ih =>
    intro known news h x hx
    by_cases hm : name ∈ known
    · simp only [collectNew, if_pos hm] at hx ⊢
      exact ih known news h x hx
    · simp only [collectNew, if_neg hm] at hx ⊢
      refine ih (name :: known) (news ++ [name]) ?_ x hx
      intro y hy
      rcases List.mem_append.mp hy with h1 | h1
      · exact List.mem_cons_of_mem _ (h y h1)
      · simp only [List.mem_singleton] at h1
        subst h1
        exact List.mem_cons_self _ _

theorem collectNew_all_known :
    ∀ (cur known news : List String), (∀ x ∈ cur, x ∈ known) →
    (collectNew cur known news).2 = news := by
  intro cur
  induction cur with
  | nil =>
    intro known news _
    rfl
  | cons name rest ih =>
    intro known news h
    have hm : name ∈ known := h name (List.mem_cons_self _ _)
    simp only [collectNew, if_pos hm]
    exact ih known news (fun x hx => h x (List.mem_cons_of_mem _ hx))

theorem onConfigChange_none_of_known (known current : List String)
    (h : ∀ n ∈ current, n ∈ known) : (onConfigChange known current).2 = none := by
  simp only [onConfigChange]
  rw [collectNew_all_known current known [] h]
  rfl

theorem onConfigChange_fst_sub (known current : List String) :
    known ⊆ (onConfigChange known current).1 := by
  simp only [onConfigChange]
  by_cases he : (collectNew current known []).2.isEmpty
  · rw [if_pos he]
    exact collectNew_known_sub current known []
  · rw [if_neg he]
    exact collectNew_known_sub current known []

theorem onConfigChange_some_inv (known current known1 : List String) (s : List String)
    (h : onConfigChange known current = (known1, some s)) :
    known1 = (collectNew current known []).1
    ∧ s = sortStrings (collectNew current known []).2
    ∧ (collectNew current known []).2 ≠ [] := by
  simp only [onConfigChange] at h
  by_cases he : (collectNew current known []).2.isEmpty
  · rw [if_pos he] at h
    simp at h
  · rw [if_neg he] at h
    have h1 := congrArg Prod.fst h
    have h2 := congrArg Prod.snd h
    simp only at h1 h2
    refine ⟨h1.symm, (Option.some.injEq _ _ ▸ h2).symm, ?_⟩
    · intro hnil
      exact he (by rw [hnil]; rfl)

theorem runProvider_fresh :
    ∀ (events : List (List String)) (known : List String),
    ∀ s ∈ (runProvider events known).2, ∀ n ∈ s, n ∉ known := by
  intro events
  induction events with
  | nil =>
    intro known s hs
    simp [runProvider] at hs
  | cons current rest ih =>
    intro known s hs n hn hknown
    rcases hoc : onConfigChange known current with ⟨known1, out⟩
    have hsub : known ⊆ known1 := by
      have := onConfigChange_fst_sub known current
      rw [hoc] at this
      exact this
    cases out with
    | none =>
      rw [runProvider, hoc] at hs
      exact ih known1 s hs n hn (hsub hknown)
    | some s0 =>
      rw [runProvider, hoc] at hs
      simp only [List.mem_cons] at hs
      rcases hs with hs | hs
      · subst hs
        obtain ⟨-, hs0, -⟩ := onConfigChange_some_inv known current known1 s hoc
        rw [hs0] at hn
        have hn' : n ∈ (collectNew current known []).2 := mem_sortStrings.mp hn
        rcases collectNew_news_fresh current known [] n hn' with h | h
        · simp at h
        · exact h hknown
      · exact ih known1 s hs n hn (hsub hknown)

theorem runProvider_pairwise :
    ∀ (events : List (List String)) (known : List String),
    List.Pairwise (fun earlier later => ∀ n ∈ later, n ∉ earlier)
      (runProvider events known).2 := by
  intro events
  induction events with
  | nil =>
    intro known
    simp [runProvider]
  | cons current rest ih =>
    intro known
    rcases hoc : onConfigChange known current with ⟨known1, out⟩
    cases out with
    | none =>
      rw [runProvider, hoc]
      exact ih known1
    | some s0 =>
      rw [runProvider, hoc]
      refine List.Pairwise.cons ?_ (ih known1)
      intro s2 hs2 n hn hn0
      have h1 : n ∉ known1 := runProvider_fresh rest known1 s2 hs2 n hn
      obtain ⟨hk1, hs0, -⟩ := onConfigChange_some_inv known current known1 s0 hoc
      rw [hs0] at hn0
      have hn0' : n ∈ (collectNew current known []).2 := mem_sortStrings.mp hn0
      have : n ∈ (collectNew current known []).1 :=
        collectNew_news_in_known current known [] (by intro x hx; simp at hx) n hn0'
      rw [← hk1] at this
      exact h1 this

theorem runProvider_slices_wf :
    ∀ (events : List (List String)) (known : List String),
    ∀ s ∈ (runProvider events known).2, s ≠ [] ∧ s.Sorted (· ≤ ·) := by
  intro events
  induction events with
  | nil =>
    intro known s hs
    simp [runProvider] at hs
  | cons current rest ih =>
    intro known s hs
    rcases hoc : onConfigChange known current with ⟨known1, out⟩
    cases out with
    | none =>
      rw [runProvider, hoc] at hs
      exact ih known1 s hs
    | some s0 =>
      rw [runProvider, hoc] at hs
      simp only [List.mem_cons] at hs
      rcases hs with hs | hs
      · subst hs
        obtain ⟨-, hs0, hne⟩ := onConfigChange_some_inv known current known1 s hoc
        constructor
        · intro hnil
          apply hne
          rw [hnil] at hs0
          have := length_sortStrings (collectNew current known []).2
          rw [← hs0] at this
          exact List.length_eq_zero.mp this.symm
        · rw [hs0]
          exact sorted_sortStrings _
      · exact ih known1 s hs

/-- C9: every slice delivered on the incoming-channels stream contains
only names never previously reported: each delivered name is neither in
the initial channel set nor in any earlier delivered slice. -/
theorem configChannelProvider_incoming_fresh :
    ∀ (topics : List String) (events : List (List String)),
    (∀ s ∈ (runProvider events (NewConfigChannelProvider topics).known).2,
        ∀ n ∈ s, n ∉ (NewConfigChannelProvider topics).initialChannels)
    ∧ List.Pairwise (fun earlier later => ∀ n ∈ later, n ∉ earlier)
        (runProvider events (NewConfigChannelProvider topics).known).2 := by
  intro topics events
  constructor
  · intro s hs n hn hmem
    have h1 : n ∉ topics := runProvider_fresh events _ s hs n hn
    exact h1 (mem_sortStrings.mp hmem)
  · exact runProvider_pairwise events _

/-- Witness for C9 at a concrete run: from initial topic "a", the events
observe topic sets, and the delivered name "c" is in a slice yet is
neither in the initial list nor in the earlier slice. -/
theorem configChannelProvider_incoming_fresh_witness :
    (["c"] ∈ (runProvider [["a", "b"], ["b", "c"]] (NewConfigChannelProvider ["a"]).known).2)
    ∧ ("c" ∈ (["c"] : List String))
    ∧ "c" ∉ (NewConfigChannelProvider ["a"]).initialChannels := by
  refine ⟨by decide, by decide, ?_⟩
  exact (configChannelProvider_incoming_fresh ["a"] [["a", "b"], ["b", "c"]]).1
    ["c"] (by decide) "c" (by decide)

/-- C10: the initial channel list is sorted ascending, every slice sent
on the incoming stream is non-empty and sorted ascending, and a config
change that discovers no new names sends nothing. -/
theorem configChannelProvider_wellformed :
    ∀ (topics known current : List String) (events : List (List String)),
    ((NewConfigChannelProvider topics).initialChannels).Sorted (· ≤ ·)
    ∧ (∀ s ∈ (runProvider events known).2, s ≠ [] ∧ s.Sorted (· ≤ ·))
    ∧ ((∀ n ∈ current, n ∈ known) → (onConfigChange known current).2 = none) := by
  intro topics known current events
  exact ⟨sorted_sortStrings topics,
    fun s hs => runProvider_slices_wf events known s hs,
    fun h => onConfigChange_none_of_known known current h⟩

/-- Witness for C10 at concrete runs: the slice delivered for a config
change that adds topic "b" is non-empty and sorted, and a config change
whose topics are already known sends nothing. -/
theorem configChannelProvider_wellformed_witness :
    (["b"] ∈ (runProvider [["a", "b"]] ["a"]).2)
    ∧ ((["b"] : List String) ≠ [] ∧ (["b"] : List String).Sorted (· ≤ ·))
    ∧ (∀ n ∈ (["a"] : List String), n ∈ (["a"] : List String))
    ∧ (onConfigChange ["a"] ["a"]).2 = none := by
  refine ⟨by decide, ?_, by decide, ?_⟩
  · exact (configChannelProvider_wellformed ["a"] ["a"] ["a"] [["a", "b"]]).2.1
      ["b"] (by decide)
  · exact (configChannelProvider_wellformed ["a"] ["a"] ["a"] [["a", "b"]]).2.2
      (by decide)

theorem natChars_lt {n : Nat} (h : n < 10) : natChars n = [Nat.digitChar n] := by
  rw [natChars]
  simp [h]

theorem natChars_ge {n : Nat} (h : ¬ n < 10) :
    natChars n = natChars (n / 10) ++ [Nat.digitChar (n % 10)] := by
  rw [natChars]
  simp [h]

theorem toDigitsCore_eq :
    ∀ (fuel n : Nat) (ds : List Char), n < fuel →
    Nat.toDigitsCore 10 fuel n ds = natChars n ++ ds := by
  intro fuel
  induction fuel with
  | zero =>
    intro n ds h
    exact absurd h (Nat.not_lt_zero n)
  | succ f ih =>
    intro n ds h
    have hstep : Nat.toDigitsCore 10 (f + 1) n ds =
        if n / 10 = 0 then Nat.digitChar (n % 10) :: ds
        else Nat.toDigitsCore 10 f (n / 10) (Nat.digitChar (n % 10) :: ds) := rfl
    by_cases h10 : n / 10 = 0
    · have hn : n < 10 := by omega
      have hmod : n % 10 = n := by omega
      rw [hstep, if_pos h10, natChars_lt hn, hmod]
      rfl
    · have hn : ¬ n < 10 := by omega
      have hlt : n / 10 < f := by omega
      rw [hstep, if_neg h10, ih (n / 10) (Nat.digitChar (n % 10) :: ds) hlt,
        natChars_ge hn, List.append_assoc]
      rfl

theorem repr_data (n : Nat) : (Nat.repr n).data = natChars n := by
  have h : Nat.repr n = (Nat.toDigitsCore 10 (n + 1) n []).asString := rfl
  rw [h, toDigitsCore_eq (n + 1) n [] (Nat.lt_succ_self n)]
  exact List.append_nil _

theorem digitChar_isDigit : ∀ k, k < 10 → (Nat.digitChar k).isDigit = true := by decide

theorem digitChar_inj10 :
    ∀ a, a < 10 → ∀ b, b < 10 → Nat.digitChar a = Nat.digitChar b → a = b := by decide

theorem natChars_ne_nil (n : Nat) : natChars n ≠ [] := by
  by_cases h : n < 10
  · rw [natChars_lt h]
    simp
  · rw [natChars_ge h]
    simp

theorem natChars_digits (n : Nat) : ∀ c ∈ natChars n, c.isDigit = true := by
  induction n using Nat.strong_induction_on with
  | _ n ih =>
    by_cases h : n < 10
    · rw [natChars_lt h]
      intro c hc
      simp only [List.mem_singleton] at hc
      subst hc
      exact digitChar_isDigit n h
    · rw [natChars_ge h]
      intro c hc
      rcases List.mem_append.mp hc with h1 | h1
      · exact ih (n / 10) (by omega) c h1
      · simp only [List.mem_singleton] at h1
        subst h1
        exact digitChar_isDigit _ (by omega)

theorem natChars_inj : ∀ m n : Nat, natChars m = natChars n → m = n := by
  intro m
  induction m using Nat.strong_induction_on with
  | _ m ih =>
    intro n he
    by_cases hm : m < 10 <;> by_cases hn : n < 10
    · rw [natChars_lt hm, natChars_lt hn] at he
      simp only [List.cons.injEq] at he
      exact digitChar_inj10 m hm n hn he.1
    · rw [natChars_lt hm, natChars_ge hn] at he
      have hlen := congrArg List.length he
      rw [List.length_append] at hlen
      simp only [List.length_singleton] at hlen
      have h0 : (natChars (n / 10)).length = 0 := by omega
      exact absurd (List.length_eq_zero.mp h0) (natChars_ne_nil (n / 10))
    · rw [natChars_ge hm, natChars_lt hn] at he
      have hlen := congrArg List.length he
      rw [List.length_append] at hlen
      simp only [List.length_singleton] at hlen
      have h0 : (natChars (m / 10)).length = 0 := by omega
      exact absurd (List.length_eq_zero.mp h0) (natChars_ne_nil (m / 10))
    · rw [natChars_ge hm, natChars_ge hn] at he
      have hd := congrArg List.dropLast he
      rw [List.dropLast_concat, List.dropLast_concat] at hd
      have hg := congrArg List.getLast? he
      rw [List.getLast?_concat, List.getLast?_concat] at hg
      have h2 : m / 10 = n / 10 := ih (m / 10) (by omega) (n / 10) hd
      have h3 : m % 10 = n % 10 :=
        digitChar_inj10 _ (by omega) _ (by omega) (Option.some.inj hg)
      omega

theorem takeWhile_append_stop (p : Char → Bool) :
    ∀ (xs : List Char) (y : Char) (ys : List Char),
    (∀ x ∈ xs, p x = true) → p y = false →
    (xs ++ y :: ys).takeWhile p = xs := by
  intro xs
  induction xs with
  | nil =>
    intro y ys _ hy
    simp [List.takeWhile_cons, hy]
  | cons a l ih =>
    intro y ys h hy
    have ha : p a = true := h a (List.mem_cons_self _ _)
    simp only [List.cons_append, List.takeWhile_cons, ha, if_true]
    rw [ih y ys (fun x hx => h x (List.mem_cons_of_mem _ hx)) hy]

theorem digits_suffix_eq :
    ∀ (l₁ l₂ r₁ r₂ : List Char),
    (∀ c ∈ r₁, c.isDigit = true) → (∀ c ∈ r₂, c.isDigit = true) →
    l₁ ++ 'v' :: r₁ = l₂ ++ 'v' :: r₂ → r₁ = r₂ := by
  intro l₁ l₂ r₁ r₂ h1 h2 he
  have hrev := congrArg List.reverse he
  rw [List.reverse_append, List.reverse_cons, List.reverse_append, List.reverse_cons,
    List.append_assoc, List.append_assoc, List.singleton_append, List.singleton_append] at hrev
  have ht := congrArg (List.takeWhile Char.isDigit) hrev
  rw [takeWhile_append_stop Char.isDigit r₁.reverse 'v' l₁.reverse
      (fun x hx => h1 x (List.mem_reverse.mp hx)) (by decide),
    takeWhile_append_stop Char.isDigit r₂.reverse 'v' l₂.reverse
      (fun x hx => h2 x (List.mem_reverse.mp hx)) (by decide)] at ht
  exact List.reverse_injective ht

theorem allocVChannelName_inj_idx :
    ∀ (p₁ p₂ : String) (cid i j : Nat), i ≠ j →
    AllocVChannelName p₁ cid i ≠ AllocVChannelName p₂ cid j := by
  intro p₁ p₂ cid i j hne he
  apply hne
  apply natChars_inj
  rw [← repr_data, ← repr_data]
  have hd := congrArg String.data he
  simp only [AllocVChannelName, String.data_append] at hd
  rw [List.append_assoc _ ['v'], List.append_assoc _ ['v'],
    List.singleton_append, List.singleton_append] at hd
  exact digits_suffix_eq _ _ _ _
    (fun c hc => natChars_digits i c (repr_data i ▸ hc))
    (fun c hc => natChars_digits j c (repr_data j ▸ hc)) hd

theorem enumFrom_pairwise_fst {α : Type _} :
    ∀ (l : List α) (k : Nat), (List.enumFrom k l).Pairwise (fun a b => a.1 ≠ b.1) := by
  intro l
  induction l with
  | nil =>
    intro k
    simp
  | cons x xs ih =>
    intro k
    have h : List.enumFrom k (x :: xs) = (k, x) :: List.enumFrom (k + 1) xs := rfl
    rw [h]
    refine List.Pairwise.cons ?_ (ih (k + 1))
    intro b hb
    rcases b with ⟨i, y⟩
    have := (List.mem_enumFrom hb).1
    simp only [ne_eq]
    omega

theorem enum_pairwise_fst {α : Type _} (l : List α) :
    l.enum.Pairwise (fun a b => a.1 ≠ b.1) := by
  have h : l.enum = List.enumFrom 0 l := rfl
  rw [h]
  exact enumFrom_pairwise_fst l 0

theorem allocNames_nodup (cid : Nat) (l : List PChannelMeta) :
    (l.enum.map (fun p => AllocVChannelName p.2.name cid p.1)).Nodup := by
  have hp := enum_pairwise_fst l
  have h2 : l.enum.Pairwise (fun a b =>
      AllocVChannelName a.2.name cid a.1 ≠ AllocVChannelName b.2.name cid b.1) :=
    hp.imp (fun hab => allocVChannelName_inj_idx _ _ cid _ _ hab)
  exact List.pairwise_map.mpr h2

/-- C5: allocVirtualChannels fails and returns no list when more names
are requested than there are registry channels available in replication;
otherwise it returns exactly num pairwise-distinct names whose i-th
element is the i-th chosen pchannel's name followed by an underscore,
the collection id, the letter v and the zero-based index i, every chosen
pchannel being available in replication. -/
theorem allocVirtualChannels_spec :
    ∀ (m : ChannelManager) (load : String → Nat) (cid num : Nat),
    (num > (m.channels.filter (fun c => c.availableInReplication)).length →
      AllocVirtualChannels m load cid num = none)
    ∧ (num ≤ (m.channels.filter (fun c => c.availableInReplication)).length →
      ∃ picked : List PChannelMeta,
        AllocVirtualChannels m load cid num =
          some (picked.enum.map (fun p => AllocVChannelName p.2.name cid p.1))
        ∧ picked.length = num
        ∧ (∀ c ∈ picked, c.availableInReplication = true)
        ∧ (picked.enum.map (fun p => AllocVChannelName p.2.name cid p.1)).Nodup) := by
  intro m load cid num
  constructor
  · intro h
    simp only [AllocVirtualChannels]
    rw [if_pos h]
  · intro h
    have hns : ¬ num > (m.channels.filter (fun c => c.availableInReplication)).length := by
      omega
    refine ⟨(List.insertionSort (fun a b => load a.name ≤ load b.name)
        (m.channels.filter (fun c => c.availableInReplication))).take num, ?_, ?_, ?_, ?_⟩
    · simp only [AllocVirtualChannels]
      rw [if_neg hns]
    · rw [List.length_take]
      have hlen : (List.insertionSort (fun a b => load a.name ≤ load b.name)
          (m.channels.filter (fun c => c.availableInReplication))).length
          = (m.channels.filter (fun c => c.availableInReplication)).length :=
        (List.perm_insertionSort _ _).length_eq
      rw [hlen]
      exact min_eq_left h
    · intro c hc
      have h1 := List.take_subset num _ hc
      have h2 : c ∈ m.channels.filter (fun c => c.availableInReplication) :=
        (List.mem_insertionSort _).mp h1
      exact (List.mem_filter.mp h2).2
    · exact allocNames_nodup cid _

/-- Witness for C5 at a concrete manager with one channel available in
replication and one not: requesting two names fails, requesting one name
yields the specified result shape. -/
theorem allocVirtualChannels_spec_witness :
    (2 > (mgrAllocTest.channels.filter (fun c => c.availableInReplication)).length
      ∧ AllocVirtualChannels mgrAllocTest loadZero 7 2 = none)
    ∧ (1 ≤ (mgrAllocTest.channels.filter (fun c => c.availableInReplication)).length
      ∧ ∃ picked : List PChannelMeta,
          AllocVirtualChannels mgrAllocTest loadZero 7 1 =
            some (picked.enum.map (fun p => AllocVChannelName p.2.name 7 p.1))
          ∧ picked.length = 1
          ∧ (∀ c ∈ picked, c.availableInReplication = true)
          ∧ (picked.enum.map (fun p => AllocVChannelName p.2.name 7 p.1)).Nodup) := by
  refine ⟨⟨by decide, (allocVirtualChannels_spec mgrAllocTest loadZero 7 2).1 (by decide)⟩,
    by decide, (allocVirtualChannels_spec mgrAllocTest loadZero 7 1).2 (by decide)⟩

/-- C1: tryAssignToServerID returns false and changes nothing exactly
when the channel is ASSIGNED to the requested node; in every other case
it returns true and sets the node, the access mode, the incremented term
and the ASSIGNING state. -/
theorem tryAssignToServerID_spec :
    ∀ (c : PChannelMeta) (am : AccessMode) (n : Int),
    (TryAssignToServerID c am n = (false, c) ↔ c.state = .ASSIGNED ∧ c.node = n)
    ∧ (¬ (c.state = .ASSIGNED ∧ c.node = n) →
        (TryAssignToServerID c am n).1 = true
        ∧ (TryAssignToServerID c am n).2.node = n
        ∧ (TryAssignToServerID c am n).2.accessMode = am
        ∧ (TryAssignToServerID c am n).2.term = c.term + 1
        ∧ (TryAssignToServerID c am n).2.state = PChannelState.ASSIGNING) := by
  intro c am n
  by_cases hc : c.state = .ASSIGNED ∧ c.node = n
  · constructor
    · simp [TryAssignToServerID, hc]
    · intro h
      exact absurd hc h
  · constructor
    · constructor
      · intro h
        have h1 := congrArg Prod.fst h
        simp only [TryAssignToServerID, if_neg hc] at h1
        exact absurd h1 (by simp)
      · intro h
        exact absurd h hc
    · intro _
      simp [TryAssignToServerID, if_neg hc]

/-- Witness for C1 at the concrete channels of pchannel_test.go: an
ASSIGNED channel re-assigned to its own node is a no-op, and an
ASSIGNING channel is re-assigned with all fields updated. -/
theorem tryAssignToServerID_spec_witness :
    (pchannelDone.state = .ASSIGNED ∧ pchannelDone.node = 789)
    ∧ TryAssignToServerID pchannelDone .RW 789 = (false, pchannelDone)
    ∧ ¬ (pchannelAssigning.state = .ASSIGNED ∧ pchannelAssigning.node = 789)
    ∧ ((TryAssignToServerID pchannelAssigning .RW 789).1 = true
      ∧ (TryAssignToServerID pchannelAssigning .RW 789).2.node = 789
      ∧ (TryAssignToServerID pchannelAssigning .RW 789).2.accessMode = .RW
      ∧ (TryAssignToServerID pchannelAssigning .RW 789).2.term = pchannelAssigning.term + 1
      ∧ (TryAssignToServerID pchannelAssigning .RW 789).2.state
          = PChannelState.ASSIGNING) := by
  refine ⟨by decide, (tryAssignToServerID_spec pchannelDone .RW 789).1.mpr (by decide),
    by decide, (tryAssignToServerID_spec pchannelAssigning .RW 789).2 (by decide)⟩

/-- Counterexample to C2 as stated: at the ASSIGNING channel of
pchannel_test.go lines 128-140 a reassignment appends a history entry
although the prior state is not ASSIGNED, and at the channel of lines
177-185 a reassignment to a node already present in the histories leaves
the history length unchanged instead of appending a second identical
entry (the last entry's term is refreshed in place). -/
theorem tryAssignHistory_claim_counterexample :
    ((TryAssignToServerID pchannelAssigning .RW 789).1 = true
      ∧ pchannelAssigning.state ≠ PChannelState.ASSIGNED
      ∧ pchannelAssigning.assignHistories = []
      ∧ (TryAssignToServerID pchannelAssigning .RW 789).2.assignHistories =
          [{ term := 2, node := 456 }])
    ∧ ((TryAssignToServerID pchannelWithHistory .RW 790).1 = true
      ∧ ({ term := 5, node := 790 } : AssignmentLog) ∈ pchannelWithHistory.assignHistories
      ∧ (TryAssignToServerID pchannelWithHistory .RW 790).2.assignHistories =
          [{ term := 4, node := 789 }, { term := 6, node := 790 }]
      ∧ ((TryAssignToServerID pchannelWithHistory .RW 790).2.assignHistories).length =
          pchannelWithHistory.assignHistories.length) := by
  decide

/-- C2 amended: whenever tryAssignToServerID applies a reassignment, the
history is touched iff the prior state is not UNINITIALIZED: when the
history is empty the prior pair is appended; when the last entry's node
differs from the prior node the prior pair is appended (one entry
longer, even when that node already occurs earlier in the history); when
the last entry already carries the prior node that entry is replaced by
the prior pair, leaving the length unchanged. -/
theorem tryAssignToServerID_history_rule :
    ∀ (c : PChannelMeta) (am : AccessMode) (n : Int),
    (TryAssignToServerID c am n).1 = true →
    ((c.state = .UNINITIALIZED →
        (TryAssignToServerID c am n).2.assignHistories = c.assignHistories)
    ∧ (c.state ≠ .UNINITIALIZED → c.assignHistories = [] →
        (TryAssignToServerID c am n).2.assignHistories = [⟨c.term, c.node⟩])
    ∧ (c.state ≠ .UNINITIALIZED → ∀ last, c.assignHistories.getLast? = some last →
        last.node ≠ c.node →
        (TryAssignToServerID c am n).2.assignHistories =
          c.assignHistories ++ [⟨c.term, c.node⟩]
        ∧ ((TryAssignToServerID c am n).2.assignHistories).length =
            c.assignHistories.length + 1)
    ∧ (c.state ≠ .UNINITIALIZED → ∀ last, c.assignHistories.getLast? = some last →
        last.node = c.node →
        (TryAssignToServerID c am n).2.assignHistories =
          c.assignHistories.dropLast ++ [⟨c.term, c.node⟩]
        ∧ ((TryAssignToServerID c am n).2.assignHistories).length =
            c.assignHistories.length)) := by
  intro c am n htrue
  by_cases hc : c.state = .ASSIGNED ∧ c.node = n
  · simp only [TryAssignToServerID, if_pos hc] at htrue
    exact absurd htrue (by simp)
  · refine ⟨?_, ?_, ?_, ?_⟩
    · intro hu
      simp only [TryAssignToServerID, if_neg hc, if_pos hu]
    · intro hu hnil
      simp [TryAssignToServerID, if_neg hc, if_neg hu, hnil]
    · intro hu last hlast hne
      constructor
      · simp [TryAssignToServerID, if_neg hc, if_neg hu, hlast, if_neg hne]
      · simp [TryAssignToServerID, if_neg hc, if_neg hu, hlast, if_neg hne]
    · intro hu last hlast heq
      have hpos : 0 < c.assignHistories.length := by
        cases hh : c.assignHistories with
        | nil =>
          rw [hh] at hlast
          simp at hlast
        | cons a l =>
          simp
      constructor
      · simp [TryAssignToServerID, if_neg hc, if_neg hu, hlast, if_pos heq]
      · simp only [TryAssignToServerID, if_neg hc, if_neg hu, hlast, if_pos heq,
          List.length_append, List.length_dropLast, List.length_singleton]
        omega

/-- Witness for C2's amended rule at the concrete channel of
pchannel_test.go lines 177-185: the last entry already records the prior
node, so the entry is replaced and the length stays the same. -/
theorem tryAssignToServerID_history_rule_witness :
    ((TryAssignToServerID pchannelWithHistory .RW 790).1 = true)
    ∧ (pchannelWithHistory.state ≠ PChannelState.UNINITIALIZED)
    ∧ (pchannelWithHistory.assignHistories.getLast? =
        some (⟨5, 790⟩ : AssignmentLog))
    ∧ (({ term := 5, node := 790 } : AssignmentLog).node = pchannelWithHistory.node)
    ∧ ((TryAssignToServerID pchannelWithHistory .RW 790).2.assignHistories =
        pchannelWithHistory.assignHistories.dropLast ++
          [⟨pchannelWithHistory.term, pchannelWithHistory.node⟩]
      ∧ ((TryAssignToServerID pchannelWithHistory .RW 790).2.assignHistories).length =
          pchannelWithHistory.assignHistories.length) := by
  refine ⟨by decide, by decide, by decide, by decide, ?_⟩
  exact (tryAssignToServerID_history_rule pchannelWithHistory .RW 790 (by decide)).2.2.2
    (by decide) ⟨5, 790⟩ (by decide) (by decide)

/-- C3: markAsUnavailable with a stale term is a silent no-op leaving
everything unchanged; with a term at least the current one it moves the
state to UNAVAILABLE, leaving term, node and histories unchanged. -/
theorem markAsUnavailable_spec :
    ∀ (c : PChannelMeta) (t : Int),
    (t < c.term → MarkAsUnavailable c t = c)
    ∧ (c.term ≤ t →
        (MarkAsUnavailable c t).state = PChannelState.UNAVAILABLE
        ∧ (MarkAsUnavailable c t).term = c.term
        ∧ (MarkAsUnavailable c t).node = c.node
        ∧ (MarkAsUnavailable c t).assignHistories = c.assignHistories) := by
  intro c t
  constructor
  · intro h
    simp [MarkAsUnavailable, h]
  · intro h
    have hn : ¬ t < c.term := by omega
    simp [MarkAsUnavailable, hn]

/-- Witness for C3 at the ASSIGNED channel of pchannel_test.go lines
157-167: term 2 is stale for a channel at term 3 and changes nothing;
term 3 moves the channel to UNAVAILABLE. -/
theorem markAsUnavailable_spec_witness :
    ((2 : Int) < pchannelDone.term ∧ MarkAsUnavailable pchannelDone 2 = pchannelDone)
    ∧ (pchannelDone.term ≤ (3 : Int)
      ∧ (MarkAsUnavailable pchannelDone 3).state = PChannelState.UNAVAILABLE
      ∧ (MarkAsUnavailable pchannelDone 3).term = pchannelDone.term
      ∧ (MarkAsUnavailable pchannelDone 3).node = pchannelDone.node
      ∧ (MarkAsUnavailable pchannelDone 3).assignHistories
          = pchannelDone.assignHistories) := by
  refine ⟨⟨by decide, (markAsUnavailable_spec pchannelDone 2).1 (by decide)⟩, ?_⟩
  obtain ⟨h1, h2, h3, h4⟩ := (markAsUnavailable_spec pchannelDone 3).2 (by decide)
  exact ⟨by decide, h1, h2, h3, h4⟩

theorem tryAssign_hist_inv (c : PChannelMeta) (am : AccessMode) (n : Int)
    (hI : ∀ h ∈ c.assignHistories, h.term < c.term) :
    ∀ h ∈ (TryAssignToServerID c am n).2.assignHistories,
      h.term < (TryAssignToServerID c am n).2.term := by
  by_cases hc : c.state = .ASSIGNED ∧ c.node = n
  · simp only [TryAssignToServerID, if_pos hc]
    exact hI
  · simp only [TryAssignToServerID, if_neg hc]
    intro h hmem
    by_cases hu : c.state = .UNINITIALIZED
    · rw [if_pos hu] at hmem
      have := hI h hmem
      omega
    · rw [if_neg hu] at hmem
      rcases hlast : c.assignHistories.getLast? with - | last
      · simp only [hlast] at hmem
        simp only [List.mem_singleton] at hmem
        subst hmem
        simp only []
        omega
      · simp only [hlast] at hmem
        by_cases hn' : last.node = c.node
        · rw [if_pos hn'] at hmem
          rcases List.mem_append.mp hmem with h1 | h1
          · have := hI h (List.dropLast_subset _ h1)
            omega
          · simp only [List.mem_singleton] at h1
            subst h1
            simp only []
            omega
        · rw [if_neg hn'] at hmem
          rcases List.mem_append.mp hmem with h1 | h1
          · have := hI h h1
            omega
          · simp only [List.mem_singleton] at h1
            subst h1
            simp only []
            omega

theorem done_hist_inv (c : PChannelMeta)
    (hI : ∀ h ∈ c.assignHistories, h.term < c.term) :
    ∀ h ∈ (AssignToServerDone c).assignHistories,
      h.term < (AssignToServerDone c).term := by
  intro h hmem
  simp only [AssignToServerDone] at hmem
  obtain ⟨hmem', -⟩ := List.mem_filter.mp hmem
  exact hI h hmem'

theorem unavail_hist_inv (c : PChannelMeta) (t : Int)
    (hI : ∀ h ∈ c.assignHistories, h.term < c.term) :
    ∀ h ∈ (MarkAsUnavailable c t).assignHistories,
      h.term < (MarkAsUnavailable c t).term := by
  by_cases ht : t < c.term
  · simp only [MarkAsUnavailable, if_pos ht]
    exact hI
  · simp only [MarkAsUnavailable, if_neg ht]
    exact hI

theorem runOps_hist_inv :
    ∀ (ops : List PChannelOp) (c : PChannelMeta),
    (∀ h ∈ c.assignHistories, h.term < c.term) →
    ∀ h ∈ (runOps c ops).assignHistories, h.term < (runOps c ops).term := by
  intro ops
  induction ops with
  | nil =>
    intro c hI
    exact hI
  | cons op rest ih =>
    intro c hI
    have hstep : runOps c (op :: rest) = runOps (applyOp c op) rest := rfl
    rw [hstep]
    apply ih
    cases op with
    | tryAssign am n => exact tryAssign_hist_inv c am n hI
    | assignDone => exact done_hist_inv c hI
    | markUnavailable t => exact unavail_hist_inv c t hI

/-- C4: in every PChannel state reachable from a fresh channel by
tryAssignToServerID, assignToServerDone and markAsUnavailable
transitions, no history entry carries a term equal to the channel's
current term; and assignToServerDone sets the state to ASSIGNED and
removes every history entry whose term is below the current term. -/
theorem pchannel_history_term_invariant :
    (∀ (name : String) (am : AccessMode) (ops : List PChannelOp) (h : AssignmentLog),
        h ∈ (runOps (NewPChannelMeta name am) ops).assignHistories →
        h.term ≠ (runOps (NewPChannelMeta name am) ops).term)
    ∧ (∀ c : PChannelMeta,
        (AssignToServerDone c).state = PChannelState.ASSIGNED
        ∧ ∀ h ∈ c.assignHistories, h.term < c.term →
            h ∉ (AssignToServerDone c).assignHistories) := by
  constructor
  · intro name am ops h hmem
    have h1 := runOps_hist_inv ops (NewPChannelMeta name am)
      (fun h' h'' => absurd h'' (List.not_mem_nil h')) h hmem
    omega
  · intro c
    refine ⟨rfl, ?_⟩
    intro h hmem hlt hmem'
    simp only [AssignToServerDone] at hmem'
    obtain ⟨-, hdec⟩ := List.mem_filter.mp hmem'
    have := of_decide_eq_true hdec
    omega

/-- Witness for C4 at the concrete trace of pchannel_test.go lines
100-140: two reassignments from a fresh channel put entry (term 2, node
456) into the history while the channel's term is 3, and
assignToServerDone drops the stale entry (term 5, node 790) of the
channel at term 6. -/
theorem pchannel_history_term_invariant_witness :
    ((⟨2, 456⟩ : AssignmentLog) ∈
        (runOps (NewPChannelMeta "test-channel" AccessMode.RW)
          [PChannelOp.tryAssign AccessMode.RW 456,
           PChannelOp.tryAssign AccessMode.RW 789]).assignHistories)
    ∧ ((2 : Int) ≠ (runOps (NewPChannelMeta "test-channel" AccessMode.RW)
          [PChannelOp.tryAssign AccessMode.RW 456,
           PChannelOp.tryAssign AccessMode.RW 789]).term)
    ∧ (AssignToServerDone pchannelWithHistory).state = PChannelState.ASSIGNED
    ∧ ((⟨5, 790⟩ : AssignmentLog) ∈ pchannelWithHistory.assignHistories
      ∧ (5 : Int) < pchannelWithHistory.term
      ∧ (⟨5, 790⟩ : AssignmentLog) ∉
          (AssignToServerDone pchannelWithHistory).assignHistories) := by
  refine ⟨by decide,
    pchannel_history_term_invariant.1 "test-channel" AccessMode.RW
      [PChannelOp.tryAssign AccessMode.RW 456,
       PChannelOp.tryAssign AccessMode.RW 789] ⟨2, 456⟩ (by decide),
    (pchannel_history_term_invariant.2 pchannelWithHistory).1,
    by decide, by decide,
    (pchannel_history_term_invariant.2 pchannelWithHistory).2
      ⟨5, 790⟩ (by decide) (by decide)⟩

/-- C6: the replication-availability flag is true when there is no
configuration or the configuration has no cross-cluster topology, and
otherwise it is true exactly when the channel name appears in the local
cluster's declared pchannel list. -/
theorem isChannelAvailableInReplication_spec :
    ∀ (name : String) (helper : Option ConfigHelper),
    (helper = none → isChannelAvailableInReplication name helper = true)
    ∧ (∀ h, helper = some h → h.config.crossClusterTopology = [] →
        isChannelAvailableInReplication name helper = true)
    ∧ (∀ h, helper = some h → h.config.crossClusterTopology ≠ [] →
        (isChannelAvailableInReplication name helper = true ↔ name ∈ localPChannels h)) := by
  intro name helper
  refine ⟨?_, ?_, ?_⟩
  · intro h
    subst h
    rfl
  · intro h hh htopo
    subst hh
    simp [isChannelAvailableInReplication, htopo]
  · intro h hh htopo
    subst hh
    have hne : ¬ h.config.crossClusterTopology.isEmpty = true := by
      simpa [List.isEmpty_iff] using htopo
    simp [isChannelAvailableInReplication, hne]

/-- Witness for C6 at the multi-cluster helper of the test: channel ch1
is declared for the local cluster and available, ch5 is not declared and
unavailable, and without a configuration everything is available. -/
theorem isChannelAvailableInReplication_spec_witness :
    (cfgHelperTest.config.crossClusterTopology ≠ [])
    ∧ (isChannelAvailableInReplication "ch1" (some cfgHelperTest) = true
        ↔ "ch1" ∈ localPChannels cfgHelperTest)
    ∧ (isChannelAvailableInReplication "ch5" (some cfgHelperTest) = true
        ↔ "ch5" ∈ localPChannels cfgHelperTest)
    ∧ isChannelAvailableInReplication "ch1" (some cfgHelperTest) = true
    ∧ isChannelAvailableInReplication "ch5" (some cfgHelperTest) = false
    ∧ isChannelAvailableInReplication "ch1" none = true := by
  refine ⟨by decide,
    (isChannelAvailableInReplication_spec "ch1" (some cfgHelperTest)).2.2 cfgHelperTest
      rfl (by decide),
    (isChannelAvailableInReplication_spec "ch5" (some cfgHelperTest)).2.2 cfgHelperTest
      rfl (by decide),
    by decide, by decide,
    (isChannelAvailableInReplication_spec "ch1" none).1 rfl⟩

/-- C7: when the catalog's savePChannels fails, addPChannels surfaces
the catalog error and leaves the manager exactly as before the call:
none of the attempted additions is observable and the epoch is not
bumped. -/
theorem addPChannels_persist_failure_rollback :
    ∀ (m : ChannelManager) (names : List String),
    AddPChannels m names false = (m, some CatalogError.persistFailure) := by
  intro m names
  have key : ∀ (fresh : List String),
      (∀ n ∈ fresh, ∀ c ∈ m.channels, c.name ≠ n) →
      (m.channels ++ fresh.map (fun n => newManagedPChannel m n)).filter
        (fun c => decide (c.name ∉ fresh)) = m.channels := by
    intro fresh hdis
    rw [List.filter_append]
    have h1 : m.channels.filter (fun c => decide (c.name ∉ fresh)) = m.channels := by
      apply List.filter_eq_self.mpr
      intro c hc
      apply decide_eq_true
      intro hmem
      exact hdis c.name hmem c hc rfl
    have h2 : (fresh.map (fun n => newManagedPChannel m n)).filter
        (fun c => decide (c.name ∉ fresh)) = [] := by
      apply List.filter_eq_nil_iff.mpr
      intro c hc
      obtain ⟨n, hn, hcn⟩ := List.mem_map.mp hc
      intro hdec
      apply of_decide_eq_true hdec
      rw [← hcn]
      show (newManagedPChannel m n).name ∈ fresh
      have hname : (newManagedPChannel m n).name = n := rfl
      rw [hname]
      exact hn
    rw [h1, h2, List.append_nil]
  have hdis : ∀ n ∈ names.filter (fun n => decide (∀ c ∈ m.channels, c.name ≠ n)),
      ∀ c ∈ m.channels, c.name ≠ n := by
    intro n hn c hc
    exact of_decide_eq_true (List.mem_filter.mp hn).2 c hc
  simp only [AddPChannels]
  rw [if_neg Bool.false_ne_true, key _ hdis]

/-- C8: updateReplicateConfiguration persists the proposed configuration
and is idempotent on the epoch: the first call bumps the epoch exactly
when the persisted configuration changes, and an immediately repeated
call with the same configuration never bumps it again, so two calls in a
row increment the epoch at most once in total. -/
theorem updateReplicateConfiguration_idempotent :
    ∀ (m : ChannelManager) (r : ReplicateConfiguration),
    (UpdateReplicateConfiguration m r).replicateConfig = some r
    ∧ (UpdateReplicateConfiguration (UpdateReplicateConfiguration m r) r).epoch
        = (UpdateReplicateConfiguration m r).epoch
    ∧ (UpdateReplicateConfiguration m r).epoch
        = (if m.replicateConfig = some r then m.epoch else m.epoch + 1) := by
  intro m r
  refine ⟨rfl, ?_, rfl⟩
  have h1 : (UpdateReplicateConfiguration m r).replicateConfig = some r := rfl
  simp [UpdateReplicateConfiguration]
